import Mathlib

/-!
Verification of the from-scratch RSA core of the repository.

The embedded code comes from three scripts:
* `Cryptography/2 Modern Cryptography/4 RSA.py` — trial-division primality
  (`prime`), per-character `encrypt`/`decrypt`, and the trial-increment
  private-exponent search;
* `Cryptography/2 Modern Cryptography/6 Digital Signature.py` — Euclidean
  `gcd`, extended-Euclidean `modinv`, `generate_keypair`, `sign`, `verify`;
* `Cryptography/2 Modern Cryptography/3 Diffie-Hellman.py` — `is_prime`.

Messages are modelled as lists of natural numbers (the code points that
Python's `ord`/`chr` move between; both are bijections between characters
and their code points, so the string layer is the identity on this data).
Python integers are modelled as `ℤ` where a value can be negative
(`prime`, `is_prime`, `modinv`) and as `ℕ` where the script only ever
handles nonnegative values.  Python's floor division `//` and sign-of-
divisor remainder `%` are exactly `Int.fdiv` and `Int.fmod`.

Loops are modelled by structural recursion on an explicit counter that is
provably larger than the number of iterations the loop can perform
(`gcdLoop`, `modinvLoop`; adequacy is proved in `gcdLoop_eq` and
`modinvLoop_congr`), or by `Nat.find` for the two search loops of the key
generators, which compute the least value satisfying their exit
condition (`dSearch`, `oddSearch`).  A `none` result of `modinv` models
the uncaught `ZeroDivisionError` that `a // m` raises when `m = 0`.
-/

namespace RSA

/-- Embeds `prime` from `4 RSA.py`: `num == 1` gives `False`, `num == 2`
gives `True`, otherwise trial division over `range(2, num)` (empty for
`num < 2`, in particular for every `num ≤ 0`). -/
def prime (num : ℤ) : Bool :=
  if num = 1 then false
  else if num = 2 then true
  else decide (∀ i ∈ Finset.Ico (2 : ℤ) num, num % i ≠ 0)

/-- Embeds `encrypt` from `4 RSA.py`: each code point is replaced by
`ord(i) ** e % n`.  The script then space-joins the decimal numerals,
which is a bijective serialisation of this list and is left out. -/
def encrypt (msg : List ℕ) (n e : ℕ) : List ℕ :=
  msg.map fun c => c ^ e % n

/-- Embeds `decrypt` from `4 RSA.py`: each ciphertext entry is replaced by
`int(i) ** d % n` (the script then maps `chr` over the results). -/
def decrypt (msg : List ℕ) (n d : ℕ) : List ℕ :=
  msg.map fun c => c ^ d % n

/-- Embeds the private-exponent search of `4 RSA.py`
(`d = 1; while (e * d) % phi != 1: d += 1`): the least `d ≥ 1` with
`e * d % phi = 1`.  The loop terminates exactly when such a `d` exists,
which the hypothesis records. -/
def dSearch (e phi : ℕ) (h : ∃ d, 1 ≤ d ∧ e * d % phi = 1) : ℕ :=
  Nat.find h

end RSA

namespace DH

/-- Embeds `is_prime` from `3 Diffie-Hellman.py`: `num ≤ 1` gives `False`,
otherwise trial division over `range(2, int(num**0.5) + 1)`.  The float
square root `int(num**0.5)` is modelled as the exact integer square root
`Int.sqrt`; the two agree on all magnitudes a double represents exactly. -/
def is_prime (num : ℤ) : Bool :=
  if num ≤ 1 then false
  else decide (∀ i ∈ Finset.Ico (2 : ℤ) (Int.sqrt num + 1), num % i ≠ 0)

end DH

namespace DS

/-- Iteration counter version of the `while b:` loop of `gcd` in
`6 Digital Signature.py`.  The counter only has to exceed `b`, the bound
on the number of iterations (`gcdLoop_eq` below shows any sufficient
counter yields `Nat.gcd`). -/
def gcdLoop : ℕ → ℕ → ℕ → ℕ
  | 0, a, _ => a
  | fuel + 1, a, b => if b = 0 then a else gcdLoop fuel b (a % b)

/-- Embeds `gcd` from `6 Digital Signature.py`:
`while b: a, b = b, a % b` then `return a`. -/
def gcd (a b : ℕ) : ℕ :=
  gcdLoop (b + 1) a b

/-- Adequacy of the iteration counter: on any counter exceeding `b`, the
embedded Euclidean loop computes `Nat.gcd`. -/
def gcdLoop_eq : ∀ (fuel a b : ℕ), b < fuel → gcdLoop fuel a b = Nat.gcd a b
  | 0, _, b, h => absurd h (Nat.not_lt_zero b)
  | fuel + 1, a, b, h => by
    rw [gcdLoop]
    rcases eq_or_ne b 0 with hb | hb
    · simp [hb]
    · rw [if_neg hb, gcdLoop_eq fuel b (a % b) (by
        have := Nat.mod_lt a (Nat.pos_of_ne_zero hb); omega)]
      rw [Nat.gcd_comm b (a % b), ← Nat.gcd_rec b a, Nat.gcd_comm b a]

/-- The source's `gcd` agrees with `Nat.gcd`. -/
def gcd_eq_natGcd (a b : ℕ) : gcd a b = Nat.gcd a b :=
  gcdLoop_eq (b + 1) a b (Nat.lt_succ_self b)

/-- Iteration counter version of the `while a > 1:` loop of `modinv` in
`6 Digital Signature.py`.  One step performs `q = a // m`;
`a, m = m, a % m`; `x0, x1 = x1 - q * x0, x0` with Python floor division
and remainder (`Int.fdiv`/`Int.fmod`).  When the loop is entered with
`m = 0`, Python raises an uncaught `ZeroDivisionError` at `a // m`,
modelled as `none`.  The counter only has to exceed `|m|`
(`modinvLoop_congr` below). -/
def modinvLoop : ℕ → ℤ → ℤ → ℤ → ℤ → Option ℤ
  | 0, _, _, _, _ => none
  | fuel + 1, a, m, x0, x1 =>
    if 1 < a then
      if m = 0 then none
      else modinvLoop fuel m (Int.fmod a m) (x1 - Int.fdiv a m * x0) x0
    else some x1

/-- Embeds `modinv` from `6 Digital Signature.py`: run the loop from
`m0, x0, x1 = m, 0, 1`, then `return x1 + m0 if x1 < 0 else x1`.
A `none` result models the uncaught `ZeroDivisionError`. -/
def modinv (a m : ℤ) : Option ℤ :=
  (modinvLoop (m.natAbs + 1) a m 0 1).map fun x => if x < 0 then x + m else x

/-- Termination witness for the fallback search of `generate_keypair`
(`e = 3; while gcd(e, phi) != 1: e += 2`): some odd `3 + 2 * k` is
coprime to `phi` whenever `phi > 0`, because any prime exceeding
`max phi 2` is odd and cannot divide `phi`. -/
def oddCoprimeExists (phi : ℕ) (h0 : 0 < phi) :
    ∃ k, gcd (3 + 2 * k) phi = 1 := by
  obtain ⟨P, hle, hP⟩ := Nat.exists_infinite_primes (phi + 3)
  have hodd : Odd P := hP.odd_of_ne_two (by omega)
  obtain ⟨t, ht⟩ := hodd
  refine ⟨t - 1, ?_⟩
  have hP3 : 3 + 2 * (t - 1) = P := by omega
  rw [gcd_eq_natGcd, hP3]
  have hndvd : ¬ P ∣ phi := fun hdvd => by
    have := Nat.le_of_dvd h0 hdvd
    omega
  exact (hP.coprime_iff_not_dvd).mpr hndvd

/-- Embeds the fallback search of `generate_keypair` in
`6 Digital Signature.py`: the least odd `e ≥ 3` with `gcd(e, phi) = 1`. -/
def oddSearch (phi : ℕ) (h0 : 0 < phi) : ℕ :=
  3 + 2 * Nat.find (oddCoprimeExists phi h0)

/-- Embeds the public-exponent selection of `generate_keypair` in
`6 Digital Signature.py`: `e = 65537` when `gcd(65537, phi) = 1`, else
the odd fallback search starting at `3`. -/
def chooseE (phi : ℕ) (h0 : 0 < phi) : ℕ :=
  if gcd 65537 phi = 1 then 65537 else oddSearch phi h0

/-- Embeds `generate_keypair` from `6 Digital Signature.py`:
`n = p * q`, `phi = (p - 1) * (q - 1)`, `e` by `chooseE`,
`d = modinv(e, phi)`, returning `((e, n), (d, n))`.  The `none` case
(propagated from `modinv`) never occurs, since `e` is chosen coprime to
`phi`. -/
def generate_keypair (p q : ℕ) (h0 : 0 < (p - 1) * (q - 1)) :
    Option ((ℕ × ℕ) × (ℕ × ℕ)) :=
  let n := p * q
  let phi := (p - 1) * (q - 1)
  let e := chooseE phi h0
  (modinv (e : ℤ) (phi : ℤ)).map fun d => ((e, n), (d.toNat, n))

/-- Modelled from the spec: the external collaborator
`CryptographicHash(bytes) -> FixedLengthDigest` of §6 ("SHA-256 or
equivalent", `hashlib.sha256` in the Python source, which is not part of
the repository's own code).  `sign` and `verify` take such a digest
function as a parameter; a message digest is an arbitrary natural
number. -/
abbrev CryptographicHash : Type := List ℕ → ℕ

/-- Embeds `sign` from `6 Digital Signature.py` with the digest function
abstracted: `msg_hash = H(msg) % n`, then `pow(msg_hash, d, n)` where the
private key is `(d, n)`. -/
def sign (H : CryptographicHash) (msg : List ℕ) (private_key : ℕ × ℕ) : ℕ :=
  (H msg % private_key.2) ^ private_key.1 % private_key.2

/-- Embeds `verify` from `6 Digital Signature.py` with the digest function
abstracted: recompute `H(msg) % n`, compare with `pow(signature, e, n)`
where the public key is `(e, n)`. -/
def verify (H : CryptographicHash) (msg : List ℕ) (signature : ℕ)
    (public_key : ℕ × ℕ) : Bool :=
  decide (H msg % public_key.2 = signature ^ public_key.1 % public_key.2)

/-- A degenerate but interface-conforming digest function: every message
hashes to `0`. -/
def constHash : CryptographicHash := fun _ => 0

/-- A digest function that sends every message to `3`. -/
def constHash3 : CryptographicHash := fun _ => 3

end DS

def hexWitness : ∃ d, 1 ≤ d ∧ 17 * d % 780 = 1 := ⟨413, by norm_num⟩

def hexA : ∃ d, 1 ≤ d ∧ 17 * d % ((61 - 1) * (53 - 1)) = 1 := ⟨2753, by norm_num⟩

def hexB : ∃ d, 1 ≤ d ∧ 5 * d % ((127 - 1) * (127 - 1)) = 1 := ⟨12701, by norm_num⟩

namespace DS

theorem fmod_natAbs_lt (a m : ℤ) (hm : 0 < m) :
    (Int.fmod a m).natAbs < m.natAbs := by
  have h1 := Int.fmod_nonneg' a hm
  have h2 := Int.fmod_lt_of_pos a hm
  omega

theorem modinvLoop_congr :
    ∀ (f1 f2 : ℕ) (a m x0 x1 : ℤ), 0 ≤ m → m.natAbs < f1 → m.natAbs < f2 →
      modinvLoop f1 a m x0 x1 = modinvLoop f2 a m x0 x1
  | 0, _, _, m, _, _, _, h1, _ => absurd h1 (Nat.not_lt_zero _)
  | _ + 1, 0, _, m, _, _, _, _, h2 => absurd h2 (Nat.not_lt_zero _)
  | f1 + 1, f2 + 1, a, m, x0, x1, hm, h1, h2 => by
    rw [modinvLoop, modinvLoop]
    rcases em (1 < a) with ha | ha
    · rw [if_pos ha, if_pos ha]
      rcases eq_or_ne m 0 with hm0 | hm0
      · rw [if_pos hm0, if_pos hm0]
      · rw [if_neg hm0, if_neg hm0]
        have hmpos : 0 < m := lt_of_le_of_ne hm (Ne.symm hm0)
        have hlt := fmod_natAbs_lt a m hmpos
        exact modinvLoop_congr f1 f2 m (Int.fmod a m) _ _
          (Int.fmod_nonneg' a hmpos) (by omega) (by omega)
    · rw [if_neg ha, if_neg ha]

theorem abs_sub_mul_eq {x0 x1 q : ℤ} (hs : x0 * x1 ≤ 0) (hq : 0 ≤ q) :
    |x1 - q * x0| = |x1| + q * |x0| := by
  rcases mul_nonpos_iff.mp hs with ⟨h0, h1⟩ | ⟨h0, h1⟩
  · rw [abs_of_nonpos h1, abs_of_nonneg h0,
      abs_of_nonpos (by nlinarith : x1 - q * x0 ≤ 0)]
    ring
  · rw [abs_of_nonneg h1, abs_of_nonpos h0,
      abs_of_nonneg (by nlinarith : (0 : ℤ) ≤ x1 - q * x0)]
    ring

theorem modinvLoop_spec (fuel : ℕ) :
    ∀ (a m x0 x1 a0 m0 : ℤ),
      m.natAbs < fuel → 1 ≤ a → 0 ≤ m → 1 < m0 →
      IsCoprime a m →
      a ≡ x1 * a0 [ZMOD m0] → m ≡ x0 * a0 [ZMOD m0] →
      a * |x0| + m * |x1| = m0 → x0 * x1 ≤ 0 → |x1| * max m 1 ≤ m0 →
      ∃ x, modinvLoop fuel a m x0 x1 = some x ∧ x * a0 ≡ 1 [ZMOD m0] ∧ |x| ≤ m0 := by
  induction fuel with
  | zero => intro a m x0 x1 a0 m0 hf; omega
  | succ f ih =>
    intro a m x0 x1 a0 m0 hf ha hm hm0 hco hac hmc hinv hs haux
    rw [modinvLoop]
    rcases em (1 < a) with ha1 | ha1
    · rcases eq_or_ne m 0 with hz | hz
      · exfalso
        rcases Int.isUnit_iff.mp (isCoprime_zero_right.mp (hz ▸ hco)) with h | h <;> omega
      · have hmpos : 0 < m := lt_of_le_of_ne hm (Ne.symm hz)
        set q := Int.fdiv a m with hqdef
        set r := Int.fmod a m with hrdef
        have hq : 0 ≤ q := Int.fdiv_nonneg (by omega) (le_of_lt hmpos)
        have hr0 : 0 ≤ r := Int.fmod_nonneg' a hmpos
        have hrm : r < m := Int.fmod_lt_of_pos a hmpos
        have heq : m * q + r = a := Int.fdiv_add_fmod a m
        have hfuel : r.natAbs < f := by
          have := fmod_natAbs_lt a m hmpos
          omega
        have hco' : IsCoprime m r := by
          have h := (hco.symm).add_mul_left_right (-q)
          rwa [show a + m * -q = r by linarith] at h
        have hrc : r ≡ (x1 - q * x0) * a0 [ZMOD m0] := by
          have h2 := hac.sub (hmc.mul_right q)
          rw [show r = a - m * q by linarith,
            show (x1 - q * x0) * a0 = x1 * a0 - x0 * a0 * q by ring]
          exact h2
        have hinv' : m * |x1 - q * x0| + r * |x0| = m0 := by
          rw [abs_sub_mul_eq hs hq]
          calc m * (|x1| + q * |x0|) + r * |x0|
              = (m * q + r) * |x0| + m * |x1| := by ring
            _ = a * |x0| + m * |x1| := by rw [heq]
            _ = m0 := hinv
        have hs' : (x1 - q * x0) * x0 ≤ 0 := by nlinarith [mul_self_nonneg x0]
        have haux' : |x0| * max r 1 ≤ m0 := by
          rcases eq_or_lt_of_le hr0 with h0 | h0
          · rw [← h0, max_eq_right (zero_le_one), mul_one]
            calc |x0| ≤ a * |x0| := le_mul_of_one_le_left (abs_nonneg x0) ha
              _ ≤ a * |x0| + m * |x1| := by nlinarith [abs_nonneg x1, mul_nonneg hm (abs_nonneg x1)]
              _ = m0 := hinv
          · rw [max_eq_left (by omega : (1 : ℤ) ≤ r)]
            have hra : r ≤ a := by nlinarith
            calc |x0| * r = r * |x0| := mul_comm _ _
              _ ≤ a * |x0| := mul_le_mul_of_nonneg_right hra (abs_nonneg x0)
              _ ≤ a * |x0| + m * |x1| := by nlinarith [abs_nonneg x1, mul_nonneg hm (abs_nonneg x1)]
              _ = m0 := hinv
        obtain ⟨x, hx, hcong, hbound⟩ :=
          ih m r (x1 - q * x0) x0 a0 m0 hfuel (by omega) hr0 hm0 hco' hmc hrc hinv' hs' haux'
        rw [if_pos ha1, if_neg hz]
        exact ⟨x, hx, hcong, hbound⟩
    · have haeq : a = 1 := by omega
      rw [if_neg ha1]
      refine ⟨x1, rfl, ?_, ?_⟩
      · exact (haeq ▸ hac).symm
      · calc |x1| = |x1| * 1 := (mul_one _).symm
          _ ≤ |x1| * max m 1 := by
            exact mul_le_mul_of_nonneg_left (le_max_right m 1) (abs_nonneg x1)
          _ ≤ m0 := haux

end DS

namespace DS

theorem modinv_spec (e phi : ℤ) (he : 1 ≤ e) (hphi : 1 < phi)
    (hco : Int.gcd e phi = 1) :
    ∃ d, modinv e phi = some d ∧ 0 < d ∧ d < phi ∧ e * d ≡ 1 [ZMOD phi] := by
  have hcop : IsCoprime e phi := Int.gcd_eq_one_iff_coprime.mp hco
  obtain ⟨x, hx, hcong, hbound⟩ :=
    modinvLoop_spec (phi.natAbs + 1) e phi 0 1 e phi (by omega) he (by omega) hphi
      hcop (by rw [one_mul])
      (by rw [zero_mul]; exact Int.modEq_zero_iff_dvd.mpr (dvd_refl phi))
      (by simp) (by simp) (by rw [abs_one, one_mul]; exact le_of_eq (max_eq_left (by omega)))
  have hx0 : x ≠ 0 := by
    intro h
    have : phi ∣ 1 - x * e := Int.modEq_iff_dvd.mp hcong
    rw [h] at this
    simp at this
    have := Int.le_of_dvd one_pos this
    omega
  have hxp : x ≠ phi := by
    intro h
    have h1 : phi ∣ 1 - x * e := Int.modEq_iff_dvd.mp hcong
    have h2 : phi ∣ x * e := h ▸ dvd_mul_right phi e
    have : phi ∣ (1 : ℤ) := by
      have := dvd_add h1 h2
      simpa using this
    have := Int.le_of_dvd one_pos this
    omega
  have hxn : x ≠ -phi := by
    intro h
    have h1 : phi ∣ 1 - x * e := Int.modEq_iff_dvd.mp hcong
    have h2 : phi ∣ x * e := by
      rw [h]
      exact Dvd.dvd.mul_right (dvd_neg.mpr (dvd_refl phi)) e
    have : phi ∣ (1 : ℤ) := by
      have := dvd_add h1 h2
      simpa using this
    have := Int.le_of_dvd one_pos this
    omega
  have habs := abs_le.mp hbound
  rcases lt_or_le x 0 with hneg | hpos
  · refine ⟨x + phi, ?_, by omega, by omega, ?_⟩
    · rw [modinv, hx]
      simp [hneg]
    · have hmod : x + phi ≡ x [ZMOD phi] := by
        unfold Int.ModEq
        simpa using Int.add_mul_emod_self_left (a := x) (b := phi) (c := 1)
      calc e * (x + phi) ≡ e * x [ZMOD phi] := hmod.mul_left e
        _ = x * e := mul_comm e x
        _ ≡ 1 [ZMOD phi] := hcong
  · refine ⟨x, ?_, by omega, by omega, ?_⟩
    · rw [modinv, hx]
      simp [not_lt.mpr hpos]
    · rw [mul_comm]
      exact hcong

theorem nat_inv_unique (e phi d1 d2 : ℕ) (hco : Nat.gcd e phi = 1)
    (h1 : d1 < phi) (h2 : d2 < phi)
    (m1 : e * d1 % phi = 1) (m2 : e * d2 % phi = 1) : d1 = d2 := by
  have hmod : e * d1 ≡ e * d2 [MOD phi] := by
    unfold Nat.ModEq
    rw [m1, m2]
  have hco' : Nat.gcd phi e = 1 := by rwa [Nat.gcd_comm]
  have h := Nat.ModEq.cancel_left_of_coprime hco' hmod
  have e1 : d1 % phi = d2 % phi := h
  rwa [Nat.mod_eq_of_lt h1, Nat.mod_eq_of_lt h2] at e1

theorem intModEq_to_natMod {e d phi : ℕ} (hphi : 1 < phi)
    (h : (e : ℤ) * (d : ℤ) ≡ 1 [ZMOD (phi : ℤ)]) : e * d % phi = 1 := by
  have h2 : ((e * d : ℕ) : ℤ) ≡ ((1 : ℕ) : ℤ) [ZMOD (phi : ℤ)] := by push_cast; exact h
  have h3 : e * d ≡ 1 [MOD phi] := Int.natCast_modEq_iff.mp h2
  have h4 : e * d % phi = 1 % phi := h3
  rwa [Nat.mod_eq_of_lt hphi] at h4

theorem modinv_spec_nat (e phi : ℕ) (he : 1 ≤ e) (hphi : 1 < phi)
    (hco : Nat.gcd e phi = 1) :
    ∃ d : ℕ, modinv (e : ℤ) (phi : ℤ) = some (d : ℤ) ∧ 0 < d ∧ d < phi ∧
      e * d % phi = 1 := by
  obtain ⟨x, hx, hx0, hxp, hcong⟩ :=
    modinv_spec (e : ℤ) (phi : ℤ) (by exact_mod_cast he) (by exact_mod_cast hphi)
      (by rw [Int.gcd_natCast_natCast]; exact hco)
  refine ⟨x.toNat, ?_, by omega, by omega, ?_⟩
  · rwa [Int.toNat_of_nonneg (by omega : (0 : ℤ) ≤ x)]
  · apply intModEq_to_natMod hphi
    rwa [Int.toNat_of_nonneg (by omega : (0 : ℤ) ≤ x)]

theorem gcd_fmod_eq (a m : ℤ) (ha : 0 ≤ a) (hm : 0 < m) :
    Int.gcd m (Int.fmod a m) = Int.gcd a m := by
  have hfm : Int.fmod a m = a % m := Int.fmod_eq_emod a (le_of_lt hm)
  obtain ⟨A, rfl⟩ : ∃ A : ℕ, a = (A : ℤ) := ⟨a.toNat, (Int.toNat_of_nonneg ha).symm⟩
  obtain ⟨M, rfl⟩ : ∃ M : ℕ, m = (M : ℤ) := ⟨m.toNat, (Int.toNat_of_nonneg (le_of_lt hm)).symm⟩
  rw [hfm, Int.ofNat_mod_ofNat, Int.gcd_natCast_natCast, Int.gcd_natCast_natCast]
  rw [Nat.gcd_comm M (A % M), ← Nat.gcd_rec M A, Nat.gcd_comm M A]

theorem modinvLoop_noncoprime :
    ∀ (fuel : ℕ) (a m : ℤ), m.natAbs < fuel → 2 ≤ a → 0 ≤ m → Int.gcd a m ≠ 1 →
      ∀ x0 x1, modinvLoop fuel a m x0 x1 = none
  | 0, _, m, h, _, _, _, _, _ => absurd h (Nat.not_lt_zero _)
  | fuel + 1, a, m, hf, ha, hm, hco, x0, x1 => by
    rw [modinvLoop, if_pos (by omega : 1 < a)]
    rcases eq_or_ne m 0 with hz | hz
    · rw [if_pos hz]
    · rw [if_neg hz]
      have hmpos : 0 < m := lt_of_le_of_ne hm (Ne.symm hz)
      have hm1 : m ≠ 1 := by
        intro h
        rw [h] at hco
        simp [Int.gcd] at hco
      have hgcd : Int.gcd m (Int.fmod a m) ≠ 1 := by
        rw [gcd_fmod_eq a m (by omega) hmpos]
        exact hco
      exact modinvLoop_noncoprime fuel m (Int.fmod a m)
        (by have := fmod_natAbs_lt a m hmpos; omega) (by omega)
        (Int.fmod_nonneg' a hmpos) hgcd _ _

end DS

theorem pow_fermat_step (p k x : ℕ) (hp : p.Prime) (hk : 1 ≤ k)
    (hdvd : (p - 1) ∣ (k - 1)) : x ^ k ≡ x [MOD p] := by
  by_cases hpx : p ∣ x
  · have h0 : x ≡ 0 [MOD p] := (Nat.modEq_zero_iff_dvd).mpr hpx
    calc x ^ k ≡ 0 ^ k [MOD p] := h0.pow k
      _ = 0 := zero_pow (by omega)
      _ ≡ x [MOD p] := h0.symm
  · have hco : Nat.Coprime x p := Nat.coprime_comm.mp ((hp.coprime_iff_not_dvd).mpr hpx)
    have he : x ^ (p - 1) ≡ 1 [MOD p] := by
      have h := Nat.ModEq.pow_totient hco
      rwa [Nat.totient_prime hp] at h
    obtain ⟨t, ht⟩ := hdvd
    have hkeq : k = (p - 1) * t + 1 := by
      conv_lhs => rw [← Nat.sub_add_cancel hk]
      rw [ht]
    calc x ^ k = (x ^ (p - 1)) ^ t * x := by rw [hkeq, pow_add, pow_mul, pow_one]
      _ ≡ 1 ^ t * x [MOD p] := (he.pow t).mul_right x
      _ = x := by rw [one_pow, one_mul]

theorem rsa_core (p q e d x : ℕ) (hp : p.Prime) (hq : q.Prime) (hne : p ≠ q)
    (hed : e * d % ((p - 1) * (q - 1)) = 1) (hx : x < p * q) :
    (x ^ e % (p * q)) ^ d % (p * q) = x := by
  have hed1 : 1 ≤ e * d := by
    rcases Nat.eq_zero_or_pos (e * d) with h | h
    · rw [h] at hed
      simp at hed
    · exact h
  have hdvd : ((p - 1) * (q - 1)) ∣ (e * d - 1) := by
    refine ⟨e * d / ((p - 1) * (q - 1)), ?_⟩
    have h := Nat.div_add_mod (e * d) ((p - 1) * (q - 1))
    omega
  have hdp : (p - 1) ∣ (e * d - 1) :=
    dvd_trans (dvd_mul_right (p - 1) (q - 1)) hdvd
  have hdq : (q - 1) ∣ (e * d - 1) :=
    dvd_trans (dvd_mul_left (q - 1) (p - 1)) hdvd
  have hmp : x ^ (e * d) ≡ x [MOD p] := pow_fermat_step p (e * d) x hp hed1 hdp
  have hmq : x ^ (e * d) ≡ x [MOD q] := pow_fermat_step q (e * d) x hq hed1 hdq
  have hcop : Nat.Coprime p q := (Nat.coprime_primes hp hq).mpr hne
  have hmn : x ^ (e * d) ≡ x [MOD p * q] :=
    (Nat.modEq_and_modEq_iff_modEq_mul hcop).mp ⟨hmp, hmq⟩
  calc (x ^ e % (p * q)) ^ d % (p * q)
      = (x ^ e) ^ d % (p * q) := (Nat.pow_mod _ _ _).symm
    _ = x ^ (e * d) % (p * q) := by rw [← pow_mul]
    _ = x % (p * q) := hmn
    _ = x := Nat.mod_eq_of_lt hx

theorem phi_gt_one (p q : ℕ) (hp : p.Prime) (hq : q.Prime) (hne : p ≠ q) :
    1 < (p - 1) * (q - 1) := by
  have h2p := hp.two_le
  have h2q := hq.two_le
  rcases eq_or_ne p 2 with h | h
  · subst h
    have h3 : 3 ≤ q := by omega
    simpa using (by omega : 1 < q - 1)
  · have h3p : 3 ≤ p := by omega
    have : 2 * 1 ≤ (p - 1) * (q - 1) := Nat.mul_le_mul (by omega) (by omega)
    omega

namespace DS

theorem chooseE_one_lt (phi : ℕ) (h0 : 0 < phi) : 1 < chooseE phi h0 := by
  unfold chooseE
  split
  · norm_num
  · unfold oddSearch
    omega

theorem chooseE_coprime (phi : ℕ) (h0 : 0 < phi) :
    Nat.gcd (chooseE phi h0) phi = 1 := by
  unfold chooseE
  split
  · rename_i h
    rwa [← gcd_eq_natGcd]
  · unfold oddSearch
    rw [← gcd_eq_natGcd]
    exact Nat.find_spec (oddCoprimeExists phi h0)

theorem chooseE_default (phi : ℕ) (h0 : 0 < phi) (h : gcd 65537 phi = 1) :
    chooseE phi h0 = 65537 := by
  unfold chooseE
  rw [if_pos h]

theorem generate_keypair_eq (p q : ℕ) (hp : p.Prime) (hq : q.Prime) (hne : p ≠ q)
    (h0 : 0 < (p - 1) * (q - 1)) {e n d n2 : ℕ}
    (hgen : generate_keypair p q h0 = some ((e, n), (d, n2))) :
    n = p * q ∧ n2 = p * q ∧
    e * d % ((p - 1) * (q - 1)) = 1 ∧ d < (p - 1) * (q - 1) ∧ 0 < d ∧ 1 < e := by
  have hphi1 : 1 < (p - 1) * (q - 1) := phi_gt_one p q hp hq hne
  obtain ⟨d0, hmod, hd0, hdlt, hinv⟩ :=
    modinv_spec_nat (chooseE ((p - 1) * (q - 1)) h0) ((p - 1) * (q - 1))
      (le_of_lt (chooseE_one_lt _ h0)) hphi1 (chooseE_coprime _ h0)
  rw [generate_keypair] at hgen
  simp only [hmod, Option.map_some'] at hgen
  rw [Int.toNat_natCast] at hgen
  obtain ⟨⟨he, hn⟩, hd, hn2⟩ :
      (chooseE ((p - 1) * (q - 1)) h0 = e ∧ p * q = n) ∧ d0 = d ∧ p * q = n2 := by
    have h1 := congrArg (fun o => o.map Prod.fst) hgen
    have h2 := congrArg (fun o => o.map Prod.snd) hgen
    simp at h1 h2
    exact ⟨⟨h1.1, h1.2⟩, h2.1, h2.2⟩
  subst he hn hd hn2
  exact ⟨rfl, rfl, hinv, hdlt, hd0, chooseE_one_lt _ h0⟩

end DS

/-- Claim C2 (amended: distinct primes): for every keypair produced by
`generate_keypair` from two distinct primes and every `x < n`,
`(x ^ e % n) ^ d % n = x % n`. -/
theorem transform_exponents_inverse (p q : ℕ) (hp : p.Prime) (hq : q.Prime)
    (hne : p ≠ q) (h0 : 0 < (p - 1) * (q - 1)) (e n d n2 : ℕ)
    (hgen : DS.generate_keypair p q h0 = some ((e, n), (d, n2)))
    (x : ℕ) (hx : x < n) : (x ^ e % n) ^ d % n = x % n := by
  obtain ⟨hn, hn2, hinv, _, _, _⟩ := DS.generate_keypair_eq p q hp hq hne h0 hgen
  subst hn
  rw [rsa_core p q e d x hp hq hne hinv hx, Nat.mod_eq_of_lt hx]

theorem transform_exponents_inverse_witness :
    (65 ^ 65537 % 3233) ^ 2753 % 3233 = 65 % 3233 :=
  transform_exponents_inverse 61 53 (by norm_num) (by norm_num) (by norm_num)
    (by norm_num) 65537 3233 2753 3233 (by decide) 65 (by norm_num)

theorem pow3_65537_mod9 : (3 : ℕ) ^ 65537 % 9 = 0 := by
  have hdvd : (9 : ℕ) ∣ 3 ^ 65537 := by
    have h := pow_dvd_pow 3 (by norm_num : 2 ≤ 65537)
    simpa using h
  exact Nat.mod_eq_zero_of_dvd hdvd

theorem transform_exponents_inverse_cex :
    DS.generate_keypair 3 3 (by norm_num) = some ((65537, 9), (1, 9)) ∧
    (3 ^ 65537 % 9) ^ 1 % 9 ≠ 3 % 9 := by
  constructor
  · decide
  · rw [pow3_65537_mod9]
    norm_num

/-- Claim C3 (amended): verification of genuine signatures and the exact
tamper-detection condition. -/
theorem sign_verify_correct (p q : ℕ) (hp : p.Prime) (hq : q.Prime)
    (hne : p ≠ q) (h0 : 0 < (p - 1) * (q - 1)) (e n d n2 : ℕ)
    (H : DS.CryptographicHash) (msg msg2 : List ℕ)
    (hgen : DS.generate_keypair p q h0 = some ((e, n), (d, n2))) :
    DS.verify H msg (DS.sign H msg (d, n2)) (e, n) = true ∧
    (DS.verify H msg2 (DS.sign H msg (d, n2)) (e, n) = true ↔
      H msg2 % n = H msg % n) := by
  obtain ⟨hn, hn2, hinv, _, _, _⟩ := DS.generate_keypair_eq p q hp hq hne h0 hgen
  subst hn
  subst hn2
  have hnpos : 0 < p * q := Nat.mul_pos hp.pos hq.pos
  have hde : d * e % ((p - 1) * (q - 1)) = 1 := by rwa [Nat.mul_comm] at hinv
  have hkey : ((H msg % (p * q)) ^ d % (p * q)) ^ e % (p * q) = H msg % (p * q) :=
    rsa_core p q d e (H msg % (p * q)) hp hq hne hde (Nat.mod_lt _ hnpos)
  constructor
  · simp [DS.verify, DS.sign, hkey]
  · simp [DS.verify, DS.sign, hkey]

theorem sign_verify_correct_witness :
    DS.verify DS.constHash [65] (DS.sign DS.constHash [65] (2753, 3233))
      (65537, 3233) = true ∧
    (DS.verify DS.constHash [66] (DS.sign DS.constHash [65] (2753, 3233))
      (65537, 3233) = true ↔ DS.constHash [66] % 3233 = DS.constHash [65] % 3233) :=
  sign_verify_correct 61 53 (by norm_num) (by norm_num) (by norm_num)
    (by norm_num) 65537 3233 2753 3233 DS.constHash [65] [66] (by decide)

theorem sign_verify_correct_cex :
    DS.generate_keypair 61 53 (by norm_num) = some ((65537, 3233), (2753, 3233)) ∧
    DS.verify DS.constHash [66] (DS.sign DS.constHash [65] (2753, 3233))
      (65537, 3233) = true ∧
    DS.generate_keypair 3 3 (by norm_num) = some ((65537, 9), (1, 9)) ∧
    DS.verify DS.constHash3 [65] (DS.sign DS.constHash3 [65] (1, 9))
      (65537, 9) = false := by
  refine ⟨by decide, ?_, by decide, ?_⟩
  · have hsig : DS.sign DS.constHash [65] (2753, 3233) = 0 := by
      simp [DS.sign, DS.constHash]
    rw [hsig]
    simp [DS.verify, DS.constHash]
  · have hsig : DS.sign DS.constHash3 [65] (1, 9) = 3 := by decide
    rw [hsig]
    simp [DS.verify, DS.constHash3, pow3_65537_mod9]

/-- Claim C10: exactly one accepted signature per message, namely the one
`sign` produces. -/
theorem signature_unique (p q : ℕ) (hp : p.Prime) (hq : q.Prime)
    (hne : p ≠ q) (h0 : 0 < (p - 1) * (q - 1)) (e n d n2 : ℕ)
    (H : DS.CryptographicHash) (msg : List ℕ)
    (hgen : DS.generate_keypair p q h0 = some ((e, n), (d, n2))) :
    DS.sign H msg (d, n2) < n ∧
    DS.verify H msg (DS.sign H msg (d, n2)) (e, n) = true ∧
    ∀ s, s < n → DS.verify H msg s (e, n) = true → s = DS.sign H msg (d, n2) := by
  obtain ⟨hn, hn2, hinv, _, _, _⟩ := DS.generate_keypair_eq p q hp hq hne h0 hgen
  subst hn
  subst hn2
  have hnpos : 0 < p * q := Nat.mul_pos hp.pos hq.pos
  have hde : d * e % ((p - 1) * (q - 1)) = 1 := by rwa [Nat.mul_comm] at hinv
  have hkey : ((H msg % (p * q)) ^ d % (p * q)) ^ e % (p * q) = H msg % (p * q) :=
    rsa_core p q d e (H msg % (p * q)) hp hq hne hde (Nat.mod_lt _ hnpos)
  refine ⟨Nat.mod_lt _ hnpos, by simp [DS.verify, DS.sign, hkey], ?_⟩
  intro s hs hv
  simp only [DS.verify, decide_eq_true_eq] at hv
  have hsig : DS.sign H msg (d, p * q) = (s ^ e % (p * q)) ^ d % (p * q) := by
    rw [DS.sign]
    rw [show H msg % (p * q) = s ^ e % (p * q) from hv]
  rw [hsig, rsa_core p q e d s hp hq hne hinv hs]

theorem signature_unique_witness :
    DS.sign DS.constHash [65] (2753, 3233) < 3233 ∧
    DS.verify DS.constHash [65] (DS.sign DS.constHash [65] (2753, 3233))
      (65537, 3233) = true ∧
    ∀ s, s < 3233 → DS.verify DS.constHash [65] s (65537, 3233) = true →
      s = DS.sign DS.constHash [65] (2753, 3233) :=
  signature_unique 61 53 (by norm_num) (by norm_num) (by norm_num) (by norm_num)
    65537 3233 2753 3233 DS.constHash [65] (by decide)

/-- Claim C7: the trial-increment search and the extended-Euclidean
`modinv` produce the same value, the unique inverse in `(0, phi)`. -/
theorem modinv_eq_trial_search (e phi : ℕ) (he : 1 < e) (hphi : 1 < phi)
    (hco : Nat.gcd e phi = 1) (hex : ∃ d, 1 ≤ d ∧ e * d % phi = 1) :
    DS.modinv (e : ℤ) (phi : ℤ) = some ((RSA.dSearch e phi hex : ℕ) : ℤ) ∧
    0 < RSA.dSearch e phi hex ∧ RSA.dSearch e phi hex < phi ∧
    e * RSA.dSearch e phi hex % phi = 1 ∧
    ∀ d2, 0 < d2 → d2 < phi → e * d2 % phi = 1 → d2 = RSA.dSearch e phi hex := by
  obtain ⟨d0, hmod, hd0pos, hd0lt, hd0inv⟩ :=
    DS.modinv_spec_nat e phi (by omega) hphi hco
  have hfs := Nat.find_spec hex
  have hle : Nat.find hex ≤ d0 := Nat.find_min' hex ⟨by omega, hd0inv⟩
  have hlt : RSA.dSearch e phi hex < phi := lt_of_le_of_lt hle hd0lt
  have hpos : 0 < RSA.dSearch e phi hex := hfs.1
  have heq : RSA.dSearch e phi hex = d0 :=
    DS.nat_inv_unique e phi _ d0 hco hlt hd0lt hfs.2 hd0inv
  refine ⟨by rw [heq]; exact hmod, hpos, hlt, hfs.2, ?_⟩
  intro d2 h1 h2 h3
  exact DS.nat_inv_unique e phi d2 _ hco h2 hlt h3 hfs.2


theorem modinv_eq_trial_search_witness :
    DS.modinv 17 780 = some 413 ∧ RSA.dSearch 17 780 hexWitness = 413 := by
  obtain ⟨h1, h2, h3, h4, h5⟩ :=
    modinv_eq_trial_search 17 780 (by norm_num) (by norm_num) (by norm_num) hexWitness
  have h6 : RSA.dSearch 17 780 hexWitness = 413 :=
    (h5 413 (by norm_num) (by norm_num) (by norm_num)).symm
  constructor
  · rw [h6] at h1
    exact_mod_cast h1
  · exact h6

/-- Claim C6 (amended): with `gcd(e, phi) ≠ 1` and `e ≥ 2` the Euclidean
loop reaches modulus `0` and the next `a // m` raises an uncaught
`ZeroDivisionError` (modelled as `none`): no typed failure is signalled. -/
theorem modinv_noncoprime_crashes (e phi : ℤ) (he : 2 ≤ e) (hphi : 0 ≤ phi)
    (hco : Int.gcd e phi ≠ 1) : DS.modinv e phi = none := by
  rw [DS.modinv,
    DS.modinvLoop_noncoprime (phi.natAbs + 1) e phi (by omega) he hphi hco 0 1]
  rfl

theorem modinv_noncoprime_crashes_witness : DS.modinv 6 9 = none :=
  modinv_noncoprime_crashes 6 9 (by norm_num) (by norm_num) (by decide)

theorem modinv_noncoprime_cex : DS.modinv 4 6 = none := by decide

/-- Claim C5 (amended): the chosen public exponent satisfies `1 < e` and
`gcd(e, phi) = 1`, and is `65537` whenever `gcd(65537, phi) = 1`; the
bound `e < phi` of the original claim is refuted separately. -/
theorem chooseE_spec (p q : ℕ) (_hp : p.Prime) (_hq : q.Prime)
    (h0 : 0 < (p - 1) * (q - 1)) :
    1 < DS.chooseE ((p - 1) * (q - 1)) h0 ∧
    DS.gcd (DS.chooseE ((p - 1) * (q - 1)) h0) ((p - 1) * (q - 1)) = 1 ∧
    (DS.gcd 65537 ((p - 1) * (q - 1)) = 1 →
      DS.chooseE ((p - 1) * (q - 1)) h0 = 65537) := by
  refine ⟨DS.chooseE_one_lt _ h0, ?_, DS.chooseE_default _ h0⟩
  rw [DS.gcd_eq_natGcd]
  exact DS.chooseE_coprime _ h0

theorem chooseE_spec_witness :
    1 < DS.chooseE ((2 - 1) * (3 - 1)) (by norm_num) ∧
    DS.gcd (DS.chooseE ((2 - 1) * (3 - 1)) (by norm_num)) ((2 - 1) * (3 - 1)) = 1 ∧
    (DS.gcd 65537 ((2 - 1) * (3 - 1)) = 1 →
      DS.chooseE ((2 - 1) * (3 - 1)) (by norm_num) = 65537) :=
  chooseE_spec 2 3 (by norm_num) (by norm_num) (by norm_num)

theorem chooseE_cex :
    DS.chooseE ((61 - 1) * (53 - 1)) (by norm_num) = 65537 ∧
    ¬(65537 < (61 - 1) * (53 - 1)) := by
  constructor
  · decide
  · decide

/-- Claim C8: the generator accepts `p = q`; with `p = q = 5` it returns a
key pair instead of signalling `InvalidPrimeError`. -/
theorem generate_keypair_accepts_equal_primes :
    DS.generate_keypair 5 5 (by norm_num) = some ((65537, 25), (1, 25)) := by
  decide

/-- Claim C9 (amended): `decrypt` and `verify` perform no range check; a
component `≥ n` is implicitly reduced modulo `n`, so adding any multiple
of `n` leaves the result unchanged and ordinary output is produced. -/
theorem no_out_of_range_check (H : DS.CryptographicHash) (msg : List ℕ)
    (s e n k c d : ℕ) (rest : List ℕ) (_hn : 0 < n) :
    DS.verify H msg (s + n * k) (e, n) = DS.verify H msg s (e, n) ∧
    RSA.decrypt ((c + n * k) :: rest) n d = RSA.decrypt (c :: rest) n d := by
  have hpow : ∀ x j : ℕ, (x + n * k) ^ j % n = x ^ j % n := fun x j => by
    rw [Nat.pow_mod, Nat.add_mul_mod_self_left, ← Nat.pow_mod]
  constructor
  · simp only [DS.verify, hpow]
  · simp only [RSA.decrypt, List.map_cons, hpow]

theorem no_out_of_range_check_witness :
    (DS.verify DS.constHash [65] (5 + 9 * 2) (7, 9) =
      DS.verify DS.constHash [65] 5 (7, 9)) ∧
    RSA.decrypt ((4 + 9 * 2) :: []) 9 3 = RSA.decrypt (4 :: []) 9 3 :=
  no_out_of_range_check DS.constHash [65] 5 7 9 2 4 3 [] (by norm_num)

theorem decrypt_out_of_range_cex : RSA.decrypt [6023] 3233 413 = [65] := by
  set_option maxRecDepth 2000 in decide

/-- Claim C1 (amended: distinct primes): the per-character round trip
restores the message for keys drawn as the RSA.py generator draws them
(`e` coprime to `phi`, `d` by trial search). -/
theorem encrypt_decrypt_roundtrip (p q : ℕ) (hp : p.Prime) (hq : q.Prime)
    (hne : p ≠ q) (e : ℕ) (_he : 2 ≤ e)
    (_hco : Nat.gcd e ((p - 1) * (q - 1)) = 1)
    (hex : ∃ d, 1 ≤ d ∧ e * d % ((p - 1) * (q - 1)) = 1)
    (msg : List ℕ) (hmsg : ∀ c ∈ msg, c < p * q) :
    RSA.decrypt (RSA.encrypt msg (p * q) e) (p * q)
      (RSA.dSearch e ((p - 1) * (q - 1)) hex) = msg := by
  have hfs := Nat.find_spec hex
  simp only [RSA.encrypt, RSA.decrypt, List.map_map]
  have hpt : ∀ c ∈ msg,
      ((fun x => x ^ RSA.dSearch e ((p - 1) * (q - 1)) hex % (p * q)) ∘
        fun x => x ^ e % (p * q)) c = id c := fun c hc =>
    rsa_core p q e _ c hp hq hne hfs.2 (hmsg c hc)
  rw [List.map_congr_left hpt, List.map_id]


theorem encrypt_decrypt_roundtrip_witness :
    RSA.decrypt (RSA.encrypt [65] (61 * 53) 17) (61 * 53)
      (RSA.dSearch 17 ((61 - 1) * (53 - 1)) hexA) = [65] :=
  encrypt_decrypt_roundtrip 61 53 (by norm_num) (by norm_num) (by norm_num)
    17 (by norm_num) (by norm_num) hexA [65] (by norm_num)


theorem dSearch_eq_find (e phi : ℕ) (h : ∃ d, 1 ≤ d ∧ e * d % phi = 1) :
    RSA.dSearch e phi h = Nat.find h := rfl

theorem encrypt_decrypt_roundtrip_cex :
    RSA.decrypt (RSA.encrypt [127] (127 * 127) 5) (127 * 127)
      (RSA.dSearch 5 ((127 - 1) * (127 - 1)) hexB) ≠ [127] := by
  have hd : RSA.dSearch 5 ((127 - 1) * (127 - 1)) hexB = 12701 := by
    rw [dSearch_eq_find]
    have hfs := Nat.find_spec hexB
    have hle : Nat.find hexB ≤ 12701 := Nat.find_min' hexB ⟨by norm_num, by norm_num⟩
    exact DS.nat_inv_unique 5 ((127 - 1) * (127 - 1))
      (Nat.find hexB) 12701 (by norm_num) (by omega) (by norm_num) hfs.2 (by norm_num)
  rw [hd]
  have henc : RSA.encrypt [127] (127 * 127) 5 = [0] := by decide
  rw [henc]
  have hdec : RSA.decrypt [0] (127 * 127) 12701 = [0] := by
    simp [RSA.decrypt, Nat.zero_pow]
  rw [hdec]
  simp

theorem nat_divisor_le_sqrt (N I : ℕ) (h2 : 2 ≤ I) (hlt : I < N) (hdvd : I ∣ N) :
    ∃ j, 2 ≤ j ∧ j ≤ Nat.sqrt N ∧ j ∣ N := by
  obtain ⟨c, hc⟩ := hdvd
  have hc2 : 2 ≤ c := by
    rcases Nat.lt_or_ge c 2 with h | h
    · interval_cases c <;> omega
    · exact h
  rcases le_total I c with h | h
  · exact ⟨I, h2, Nat.le_sqrt.mpr (by nlinarith), ⟨c, hc⟩⟩
  · exact ⟨c, hc2, Nat.le_sqrt.mpr (by nlinarith), ⟨I, by rw [hc, Nat.mul_comm]⟩⟩

theorem int_divisor_le_sqrt (num : ℤ) (h2 : 2 < num) :
    (∃ i : ℤ, 2 ≤ i ∧ i < num ∧ num % i = 0) ↔
    (∃ i : ℤ, 2 ≤ i ∧ i ≤ Int.sqrt num ∧ num % i = 0) := by
  have hnum : ((num.toNat : ℤ)) = num := Int.toNat_of_nonneg (by omega)
  constructor
  · rintro ⟨i, h2i, hilt, hmod⟩
    have hdvd : i ∣ num := Int.dvd_of_emod_eq_zero hmod
    have hitn : ((i.toNat : ℤ)) = i := Int.toNat_of_nonneg (by omega)
    have hdvdN : i.toNat ∣ num.toNat := by
      rw [← Int.natCast_dvd_natCast, hitn, hnum]
      exact hdvd
    obtain ⟨j, hj2, hjle, hjdvd⟩ := nat_divisor_le_sqrt num.toNat i.toNat
      (by omega) (by omega) hdvdN
    refine ⟨(j : ℤ), by exact_mod_cast hj2, ?_, ?_⟩
    · simp only [Int.sqrt]
      exact_mod_cast hjle
    · apply Int.emod_eq_zero_of_dvd
      rw [← hnum]
      exact_mod_cast hjdvd
  · rintro ⟨i, h2i, hile, hmod⟩
    refine ⟨i, h2i, ?_, hmod⟩
    have hs : Nat.sqrt num.toNat < num.toNat := Nat.sqrt_lt_self (by omega)
    have hlt : Int.sqrt num < num := by
      simp only [Int.sqrt]
      omega
    omega

theorem is_prime_false_iff (num : ℤ) (h2 : 2 < num) :
    DH.is_prime num = false ↔
      ∃ i : ℤ, 2 ≤ i ∧ i ≤ Int.sqrt num ∧ num % i = 0 := by
  rw [DH.is_prime, if_neg (by omega : ¬ num ≤ 1), decide_eq_false_iff_not]
  push_neg
  constructor
  · rintro ⟨i, hi, hmod⟩
    rw [Finset.mem_Ico] at hi
    exact ⟨i, hi.1, Int.lt_add_one_iff.mp hi.2, hmod⟩
  · rintro ⟨i, h2i, hile, hmod⟩
    exact ⟨i, Finset.mem_Ico.mpr ⟨h2i, Int.lt_add_one_iff.mpr hile⟩, hmod⟩

theorem prime_false_iff (num : ℤ) (h2 : 2 < num) :
    RSA.prime num = false ↔
      ∃ i : ℤ, 2 ≤ i ∧ i ≤ Int.sqrt num ∧ num % i = 0 := by
  rw [← int_divisor_le_sqrt num h2]
  rw [RSA.prime, if_neg (by omega : ¬ num = 1), if_neg (by omega : ¬ num = 2),
    decide_eq_false_iff_not]
  push_neg
  constructor
  · rintro ⟨i, hi, hmod⟩
    rw [Finset.mem_Ico] at hi
    exact ⟨i, hi.1, hi.2, hmod⟩
  · rintro ⟨i, h2i, hile, hmod⟩
    exact ⟨i, Finset.mem_Ico.mpr ⟨h2i, hile⟩, hmod⟩


theorem nat_sqrt_eq (n k : ℕ) (h1 : k * k ≤ n) (h2 : n < (k + 1) * (k + 1)) :
    Nat.sqrt n = k := by
  have ha := Nat.le_sqrt.mpr h1
  have hb := Nat.sqrt_lt.mpr h2
  omega

theorem int_sqrt_eq (n k : ℤ) (hn : 0 ≤ n) (hk : 0 ≤ k)
    (h1 : k * k ≤ n) (h2 : n < (k + 1) * (k + 1)) : Int.sqrt n = k := by
  have hK : (k.toNat : ℤ) = k := Int.toNat_of_nonneg hk
  have hN : (n.toNat : ℤ) = n := Int.toNat_of_nonneg hn
  have h1n : k.toNat * k.toNat ≤ n.toNat := by
    rw [← Nat.cast_le (α := ℤ)]
    push_cast
    rw [hK, hN]
    exact h1
  have h2n : n.toNat < (k.toNat + 1) * (k.toNat + 1) := by
    rw [← Nat.cast_lt (α := ℤ)]
    push_cast
    rw [hK, hN]
    exact h2
  simp only [Int.sqrt]
  rw [nat_sqrt_eq n.toNat k.toNat h1n h2n, hK]

theorem is_prime_eval (num s : ℤ) (hn : 0 ≤ num) (hs : 0 ≤ s)
    (h1 : s * s ≤ num) (hlt : num < (s + 1) * (s + 1)) (h2 : ¬ num ≤ 1) :
    DH.is_prime num = decide (∀ i ∈ Finset.Ico (2 : ℤ) (s + 1), num % i ≠ 0) := by
  rw [DH.is_prime, if_neg h2, int_sqrt_eq num s hn hs h1 hlt]


theorem is_prime_2 : DH.is_prime 2 = true := by
  rw [is_prime_eval 2 1 (by norm_num) (by norm_num) (by norm_num) (by norm_num)
    (by norm_num)]
  decide

theorem is_prime_3 : DH.is_prime 3 = true := by
  rw [is_prime_eval 3 1 (by norm_num) (by norm_num) (by norm_num) (by norm_num)
    (by norm_num)]
  decide

theorem is_prime_5 : DH.is_prime 5 = true := by
  rw [is_prime_eval 5 2 (by norm_num) (by norm_num) (by norm_num) (by norm_num)
    (by norm_num)]
  decide

theorem is_prime_7 : DH.is_prime 7 = true := by
  rw [is_prime_eval 7 2 (by norm_num) (by norm_num) (by norm_num) (by norm_num)
    (by norm_num)]
  decide

theorem is_prime_11 : DH.is_prime 11 = true := by
  rw [is_prime_eval 11 3 (by norm_num) (by norm_num) (by norm_num) (by norm_num)
    (by norm_num)]
  decide

theorem is_prime_97 : DH.is_prime 97 = true := by
  rw [is_prime_eval 97 9 (by norm_num) (by norm_num) (by norm_num) (by norm_num)
    (by norm_num)]
  decide

theorem is_prime_100 : DH.is_prime 100 = false := by
  rw [is_prime_eval 100 10 (by norm_num) (by norm_num) (by norm_num) (by norm_num)
    (by norm_num)]
  decide

theorem is_prime_91 : DH.is_prime 91 = false := by
  rw [is_prime_eval 91 9 (by norm_num) (by norm_num) (by norm_num) (by norm_num)
    (by norm_num)]
  decide

theorem is_prime_of_le_one (num : ℤ) (h : num ≤ 1) : DH.is_prime num = false := by
  rw [DH.is_prime, if_pos h]

theorem prime_of_nonpos (num : ℤ) (h : num ≤ 0) : RSA.prime num = true := by
  rw [RSA.prime, if_neg (by omega : ¬ num = 1), if_neg (by omega : ¬ num = 2),
    Finset.Ico_eq_empty (by omega : ¬ (2 : ℤ) < num)]
  simp

/-- Claim C4 (amended): `is_prime` satisfies the full contract; `prime`
satisfies it for `num ≥ 1` but returns `true` for every `num ≤ 0`. -/
theorem primality_contract :
    (∀ num : ℤ, num ≤ 1 → DH.is_prime num = false) ∧
    DH.is_prime 2 = true ∧
    (∀ num : ℤ, 2 < num →
      (DH.is_prime num = false ↔
        ∃ i : ℤ, 2 ≤ i ∧ i ≤ Int.sqrt num ∧ num % i = 0)) ∧
    (RSA.prime 1 = false ∧ RSA.prime 2 = true) ∧
    (∀ num : ℤ, 2 < num →
      (RSA.prime num = false ↔
        ∃ i : ℤ, 2 ≤ i ∧ i ≤ Int.sqrt num ∧ num % i = 0)) ∧
    (∀ num : ℤ, num ≤ 0 → RSA.prime num = true) ∧
    ((DH.is_prime 3 = true ∧ DH.is_prime 5 = true ∧ DH.is_prime 7 = true ∧
      DH.is_prime 11 = true ∧ DH.is_prime 97 = true) ∧
     (DH.is_prime 1 = false ∧ DH.is_prime 0 = false ∧ DH.is_prime (-3) = false ∧
      DH.is_prime 100 = false ∧ DH.is_prime 91 = false) ∧
     (RSA.prime 3 = true ∧ RSA.prime 5 = true ∧ RSA.prime 7 = true ∧
      RSA.prime 11 = true ∧ RSA.prime 97 = true) ∧
     (RSA.prime 100 = false ∧ RSA.prime 91 = false)) :=
  ⟨is_prime_of_le_one, is_prime_2, is_prime_false_iff, ⟨by decide, by decide⟩,
    prime_false_iff, prime_of_nonpos,
    ⟨is_prime_3, is_prime_5, is_prime_7, is_prime_11, is_prime_97⟩,
    ⟨is_prime_of_le_one 1 (by norm_num), is_prime_of_le_one 0 (by norm_num),
      is_prime_of_le_one (-3) (by norm_num), is_prime_100, is_prime_91⟩,
    ⟨by decide, by decide, by decide, by decide, by decide⟩,
    ⟨by decide, by decide⟩⟩

theorem primality_contract_witness : DH.is_prime (-7) = false :=
  primality_contract.1 (-7) (by norm_num)

theorem primality_cex : RSA.prime 0 = true ∧ RSA.prime (-3) = true := by
  constructor
  · decide
  · decide
